import Mathlib

/-!
Shallow embedding of `src/process_annotations.py` (annotation simplification and
reading-order reconstruction), together with theorems checking the
natural-language specification against this embedding.

Conventions of the embedding:
* JSON numbers are modelled as rationals (`ℚ`); Python's `int(...)` cast is
  truncation toward zero (`truncQ`).
* JSON objects with a fixed schema become structures with `Option` fields for
  keys that may be absent; generic JSON objects (`sub_categories`,
  `relationships`) become association lists in insertion order.
* Python's stable `list.sort(key=...)` is modelled by `List.insertionSort`
  with the corresponding total preorder (insertion sort is stable in the same
  sense as Timsort: equal keys keep their original relative order).
* The structure name `Ann` stands for the source's "annotation" records
  (the source spelling is not used as an identifier here).
-/

namespace DD

/- Core `Rat` arithmetic is `@[irreducible]` by default, which would keep
`decide` from evaluating the embedding on concrete pages; restore the usual
transparency locally. -/
attribute [local semireducible] Rat.add Rat.sub Rat.mul Rat.inv Rat.ofScientific

/-- A `sub_categories` attribute record: optional text `value` and optional
`category_id` (used as the reading-order rank). -/
structure SubCat where
  value : Option String
  category_id : Option Int
deriving DecidableEq, Repr

/-- A raw bounding box as it appears in the input: every coordinate may be
absent, plus the optional `absolute_coords` flag. -/
structure BBoxRaw where
  ulx : Option ℚ
  uly : Option ℚ
  lrx : Option ℚ
  lry : Option ℚ
  absolute_coords : Option Bool
deriving DecidableEq, Repr

/-- One region record from the input page (the source's per-item JSON object):
`_annotation_id`, `category_name`, `bounding_box`, `sub_categories`,
`relationships`, an optional top-level `value`, and the derived `text`. -/
structure Ann where
  annId : String
  category_name : Option String
  bounding_box : Option BBoxRaw
  sub_categories : Option (List (String × SubCat))
  relationships : Option (List (String × List String))
  value : Option String
  text : Option String
deriving DecidableEq, Repr

/-- The page's own `_bbox` record (all four coordinates optional). -/
structure PBox where
  ulx : Option ℚ
  uly : Option ℚ
  lrx : Option ℚ
  lry : Option ℚ
deriving DecidableEq, Repr

/-- A page: optional `_bbox` plus the ordered `annotations` collection. -/
structure Page where
  pbox : Option PBox
  anns : List Ann
deriving DecidableEq, Repr

/-- The source's `annotation_map` dict comprehension: id-to-record lookup,
with a later record winning on duplicate ids (dict comprehension semantics). -/
def annMap (anns : List Ann) (i : String) : Option Ann :=
  anns.reverse.find? (fun a => a.annId == i)

/-- `extract_word_text`: first `sub_categories` entry carrying a `value` wins;
otherwise the record's own top-level `value`; otherwise the empty string. -/
def extract_word_text (w : Ann) : String :=
  match w.sub_categories with
  | some scs =>
    match scs.find? (fun p => p.2.value.isSome) with
    | some p => p.2.value.getD ""
    | none => w.value.getD ""
  | none => w.value.getD ""

/-- `extract_reading_order`: the `category_id` of the `reading_order`
sub-category if present, else the sentinel `999999`. -/
def extract_reading_order (w : Ann) : Int :=
  match w.sub_categories with
  | some scs =>
    match scs.lookup "reading_order" with
    | some sc =>
      match sc.category_id with
      | some cid => cid
      | none => 999999
    | none => 999999
  | none => 999999

/-- One entry of the source's `word_data` list. -/
structure WordDatum where
  text : String
  reading_order : Int
deriving DecidableEq, Repr

/-- The body of the source's per-child loop: resolve the id, keep only
`"word"` records, and keep only non-empty extracted text. -/
def childWordDatum (amap : String → Option Ann) (cid : String) : Option WordDatum :=
  match amap cid with
  | none => none
  | some child =>
    if child.category_name = some "word" then
      let t := extract_word_text child
      if t = "" then none else some ⟨t, extract_reading_order child⟩
    else none

/-- The source's `word_data` list for a given child-id list. -/
def wordData (amap : String → Option Ann) (cids : List String) : List WordDatum :=
  cids.filterMap (childWordDatum amap)

/-- The sort key of `word_data.sort(key=lambda x: x["reading_order"])`. -/
def rankLE (x y : WordDatum) : Prop := x.reading_order ≤ y.reading_order

instance : DecidableRel rankLE := fun x y =>
  inferInstanceAs (Decidable (x.reading_order ≤ y.reading_order))

/-- Stable ascending sort of `word_data` by reading order. -/
def sortWordData (wd : List WordDatum) : List WordDatum := wd.insertionSort rankLE

/-- `" ".join(w["text"] for w in word_data)` after sorting. -/
def mergedText (wd : List WordDatum) : String :=
  String.intercalate " " ((sortWordData wd).map (fun w => w.text))

/-- `annotation.get("relationships", {})`. -/
def relsOf (a : Ann) : List (String × List String) := a.relationships.getD []

/-- The `child` entry of the relationships mapping, when the key is present. -/
def childIdsOf (a : Ann) : Option (List String) := (relsOf a).lookup "child"

/-- The body of the source's main loop for one record: when a `child` entry
exists and some kept word child yields text, set `text`, drop the `child` key,
and drop `relationships` entirely if it became empty; otherwise return the
record unchanged. -/
def aggregateAnn (amap : String → Option Ann) (a : Ann) : Ann :=
  match childIdsOf a with
  | none => a
  | some cids =>
    let wd := wordData amap cids
    if wd = [] then a
    else
      let rest := (relsOf a).filter (fun p => decide (p.1 ≠ "child"))
      { a with
        text := some (mergedText wd)
        relationships := if rest = [] then none else some rest }

/-- `child_ids_to_remove` accumulated over the whole collection (as a list;
only membership matters). -/
def removalList (anns : List Ann) : List String :=
  anns.foldl
    (fun acc a =>
      match childIdsOf a with
      | none => acc
      | some cids => acc ++ cids) []

/-- Lines 19-63 of the source: build the map, aggregate every record, then
filter out every record whose id was referenced as a child (the filter is
only run when the removal set is non-empty, as in the source). -/
def aggregatePage (p : Page) : Page :=
  let amap := annMap p.anns
  let anns1 := p.anns.map (aggregateAnn amap)
  let rem := removalList p.anns
  { p with anns := if rem = [] then anns1 else anns1.filter (fun a => decide (a.annId ∉ rem)) }

/-- Python's `int(...)` on a rational: truncation toward zero. -/
def truncQ (q : ℚ) : Int := if 0 ≤ q then ⌊q⌋ else ⌈q⌉

/-- The page bounding box with the source's defaults `0, 0, 1000, 1000`. -/
structure RBox where
  ulx : ℚ
  uly : ℚ
  lrx : ℚ
  lry : ℚ
deriving DecidableEq, Repr

/-- `get_page_bbox`: missing `_bbox` (or missing fields) fall back to the
default page `0,0 - 1000,1000`. -/
def get_page_bbox (p : Page) : RBox :=
  let b := p.pbox.getD ⟨none, none, none, none⟩
  ⟨b.ulx.getD 0, b.uly.getD 0, b.lrx.getD 1000, b.lry.getD 1000⟩

/-- `max(1, int(page_bbox["lrx"] - page_bbox["ulx"]))`. -/
def pageW (pb : RBox) : Int := max 1 (truncQ (pb.lrx - pb.ulx))

/-- `max(1, int(page_bbox["lry"] - page_bbox["uly"]))`. -/
def pageH (pb : RBox) : Int := max 1 (truncQ (pb.lry - pb.uly))

/-- An absolute-pixel bounding box (all fields integers). -/
structure AbsBox where
  ulx : Int
  uly : Int
  lrx : Int
  lry : Int
deriving DecidableEq, Repr

/-- `to_absolute_bbox`: with `absolute_coords` true (default), cast each
coordinate to integer; with it false, scale x-coordinates by the page width
and y-coordinates by the page height, then truncate. Missing fields are 0. -/
def to_absolute_bbox (bbox : BBoxRaw) (pb : RBox) : AbsBox :=
  let pw : Int := pageW pb
  let ph : Int := pageH pb
  if bbox.absolute_coords.getD true then
    ⟨truncQ (bbox.ulx.getD 0), truncQ (bbox.uly.getD 0),
     truncQ (bbox.lrx.getD 0), truncQ (bbox.lry.getD 0)⟩
  else
    ⟨truncQ ((bbox.ulx.getD 0) * (pw : ℚ)), truncQ ((bbox.uly.getD 0) * (ph : ℚ)),
     truncQ ((bbox.lrx.getD 0) * (pw : ℚ)), truncQ ((bbox.lry.getD 0) * (ph : ℚ))⟩

/-- One entry of the source's `items` list: the record, its absolute box, its
horizontal center and its top edge. -/
structure Item where
  ann : Ann
  absb : AbsBox
  cx : ℚ
  yt : Int
deriving DecidableEq, Repr

/-- Lines 97-107 of the source: build an item from a record. -/
def mkItem (pb : RBox) (a : Ann) : Item :=
  let absb := to_absolute_bbox (a.bounding_box.getD ⟨none, none, none, none, none⟩) pb
  ⟨a, absb, ((absb.ulx : ℚ) + (absb.lrx : ℚ)) / 2, absb.uly⟩

/-- `column_threshold = max(int(0.08 * page_w), 60)`. -/
def column_threshold (pb : RBox) : Int := max (truncQ ((0.08 : ℚ) * (pageW pb : ℚ))) 60

/-- A column under construction: running center and member list. -/
structure Col where
  center : ℚ
  members : List Item
deriving DecidableEq, Repr

/-- Sum of the members' horizontal centers. -/
def cxSum (ms : List Item) : ℚ := (ms.map (fun m => m.cx)).sum

/-- Place one item: scan existing columns in creation order, join the first
column whose running center is within the threshold (updating that center to
the members' mean), else append a fresh singleton column at the end. -/
def placeItem (T : Int) (it : Item) : List Col → List Col
  | [] => [⟨it.cx, [it]⟩]
  | c :: cs =>
    if |it.cx - c.center| ≤ (T : ℚ) then
      let ms := c.members ++ [it]
      ⟨cxSum ms / (ms.length : ℚ), ms⟩ :: cs
    else
      c :: placeItem T it cs

/-- The column-building walk over a list of items. -/
def buildColumns (T : Int) (its : List Item) : List Col :=
  its.foldl (fun cols it => placeItem T it cols) []

/-- Sort key of `items.sort(key=lambda x: x["cx"])`. -/
def cxLE (x y : Item) : Prop := x.cx ≤ y.cx

instance : DecidableRel cxLE := fun x y => inferInstanceAs (Decidable (x.cx ≤ y.cx))

/-- Sort key of the member sort `key=lambda m: (m["yt"], m["abs"]["ulx"])`. -/
def memLE (x y : Item) : Prop := x.yt < y.yt ∨ (x.yt = y.yt ∧ x.absb.ulx ≤ y.absb.ulx)

instance : DecidableRel memLE := fun x y =>
  inferInstanceAs (Decidable (x.yt < y.yt ∨ (x.yt = y.yt ∧ x.absb.ulx ≤ y.absb.ulx)))

/-- Sort key of `columns.sort(key=lambda c: c["center"])`. -/
def ctrLE (x y : Col) : Prop := x.center ≤ y.center

instance : DecidableRel ctrLE := fun x y => inferInstanceAs (Decidable (x.center ≤ y.center))

/-- Lines 113-134 of the source, on items: sort by center, cluster, sort the
columns by final center, sort each column's members, and concatenate. -/
def orderItems (T : Int) (its : List Item) : List Item :=
  (((buildColumns T (its.insertionSort cxLE)).insertionSort ctrLE).map
    (fun c => c.members.insertionSort memLE)).flatten

/-- `order_parents`: the reading-order reconstruction over records. -/
def order_parents (parents : List Ann) (pb : RBox) : List Ann :=
  (orderItems (column_threshold pb) (parents.map (mkItem pb))).map (fun it => it.ann)

/-- `simplify_annotations_data`: aggregation followed by reordering. -/
def simplify_annotations_data (p : Page) : Page :=
  let p1 := aggregatePage p
  { p1 with anns := order_parents p1.anns (get_page_bbox p1) }

/-! ### Permutation facts about the clustering walk -/

open List

/-- All items currently held by a list of columns, in member order. -/
def colItems (cols : List Col) : List Item := (cols.map Col.members).flatten

theorem colItems_placeItem (T : Int) (it : Item) :
    ∀ cols : List Col, colItems (placeItem T it cols) ~ it :: colItems cols := by
  intro cols
  induction cols with
  | nil => simp [placeItem, colItems]
  | cons c cs ih =>
    by_cases h : |it.cx - c.center| ≤ (T : ℚ)
    · simp only [placeItem, if_pos h, colItems, List.map_cons, List.flatten_cons]
      rw [List.append_assoc, List.singleton_append]
      exact List.perm_middle
    · simp only [placeItem, if_neg h, colItems, List.map_cons, List.flatten_cons]
      exact (ih.append_left c.members).trans List.perm_middle

theorem colItems_foldl (T : Int) :
    ∀ (its : List Item) (cols : List Col),
      colItems (its.foldl (fun cs it => placeItem T it cs) cols) ~ colItems cols ++ its := by
  intro its
  induction its with
  | nil => intro cols; simp
  | cons it its ih =>
    intro cols
    refine (ih (placeItem T it cols)).trans ?_
    refine ((colItems_placeItem T it cols).append_right its).trans ?_
    rw [List.cons_append]
    exact List.perm_middle.symm

theorem colItems_buildColumns (T : Int) (its : List Item) :
    colItems (buildColumns T its) ~ its := by
  simpa [colItems] using colItems_foldl T its []

theorem flatten_perm_of_perm {α : Type} {l₁ l₂ : List (List α)} (h : l₁ ~ l₂) :
    l₁.flatten ~ l₂.flatten := by
  induction h with
  | nil => rfl
  | cons x _ ih => exact ih.append_left x
  | swap x y l =>
    simp only [List.flatten_cons]
    rw [← List.append_assoc, ← List.append_assoc]
    exact (List.perm_append_comm).append_right _
  | trans _ _ ih₁ ih₂ => exact ih₁.trans ih₂

theorem orderItems_perm (T : Int) (its : List Item) : orderItems T its ~ its := by
  unfold orderItems
  have h1 : List.Forall₂ (· ~ ·)
      (((buildColumns T (its.insertionSort cxLE)).insertionSort ctrLE).map
        (fun c => c.members.insertionSort memLE))
      (((buildColumns T (its.insertionSort cxLE)).insertionSort ctrLE).map Col.members) := by
    rw [List.forall₂_map_right_iff, List.forall₂_map_left_iff]
    refine List.forall₂_same.2 ?_
    intro c _
    exact List.perm_insertionSort memLE c.members
  refine (List.Perm.flatten_congr h1).trans ?_
  have h2 : ((buildColumns T (its.insertionSort cxLE)).insertionSort ctrLE).map Col.members ~
      (buildColumns T (its.insertionSort cxLE)).map Col.members :=
    (List.perm_insertionSort ctrLE _).map Col.members
  refine (flatten_perm_of_perm h2).trans ?_
  exact (colItems_buildColumns T _).trans (List.perm_insertionSort cxLE its)

theorem mkItem_ann (pb : RBox) (a : Ann) : (mkItem pb a).ann = a := rfl

/-! ### Concrete example pages used by witnesses and counterexamples -/

/-- A word record with given id, text (in a sub-category `value`) and an
optional reading-order rank. -/
def mkWord (i t : String) (r : Option Int) : Ann :=
  ⟨i, some "word", none,
   some ([("chars", ⟨some t, none⟩)] ++
     (match r with
      | some k => [("reading_order", (⟨none, some k⟩ : SubCat))]
      | none => [])),
   none, none, none⟩

/-- A record with a concrete absolute bounding box and no relationships. -/
def mkBoxAnn (i : String) (ux uy lx ly : ℚ) : Ann :=
  ⟨i, some "table", some ⟨some ux, some uy, some lx, some ly, none⟩, none, none, none, none⟩

/-- Parent with word children whose ranks are `[3, 1, 2]` and texts
`["c", "a", "b"]` (in child-list order). -/
def pC1 : Ann := ⟨"P", some "table", none, none, some [("child", ["wc", "wa", "wb"])], none, none⟩

/-- The page for the text-ordering scenario of the spec. -/
def pageC1 : Page :=
  ⟨none, [pC1, mkWord "wc" "c" (some 3), mkWord "wa" "a" (some 1), mkWord "wb" "b" (some 2)]⟩

/-- The default-size page box `0,0 - 1000,1000`. -/
def pb1000 : RBox := ⟨0, 0, 1000, 1000⟩

/-- A page box of width 1001 (so that 8 percent of the width is not an
integer). -/
def pb1001 : RBox := ⟨0, 0, 1001, 1000⟩

/-- Clustering example: absolute x-centers 100, 900, 920 on a 1000-wide page. -/
def a100 : Ann := mkBoxAnn "A1" 50 0 150 10

/-- Second clustering record, x-center 900. -/
def a900 : Ann := mkBoxAnn "A2" 850 0 950 10

/-- Third clustering record, x-center 920, lower on the page. -/
def a920 : Ann := mkBoxAnn "A3" 870 20 970 30

/-- Top-level parent of the grandchild chain. -/
def annA : Ann := ⟨"A", some "table", none, none, some [("child", ["B"])], none, none⟩

/-- Middle record: a child of `annA` that itself lists a child. -/
def annB : Ann := ⟨"B", some "cell", none, none, some [("child", ["C"])], none, none⟩

/-- Grandchild word record. -/
def annC : Ann := mkWord "C" "x" (some 0)

/-- The grandchild-chain page `A -> B -> C`. -/
def pageC8 : Page := ⟨none, [annA, annB, annC]⟩

/-- Parent whose children are an unranked word and a word with explicit
reading-order rank 1000000. -/
def pC7 : Ann := ⟨"P", some "table", none, none, some [("child", ["u", "v"])], none, none⟩

/-- Page for the fallback-reading-order counterexample. -/
def pageC7 : Page := ⟨none, [pC7, mkWord "u" "a" none, mkWord "v" "b" (some 1000000)]⟩

/-- Parent whose single child is a word without any text. -/
def pEmptyWd : Ann := ⟨"P", some "table", none, none, some [("child", ["w0"])], none, none⟩

/-- A word record without text anywhere. -/
def w0 : Ann := ⟨"w0", some "word", none, none, none, none, none⟩

/-- Page on which aggregation extracts no text at all. -/
def pageE : Page := ⟨none, [pEmptyWd, w0]⟩

/-! ### Aggregation lemmas -/

theorem aggregateAnn_annId (amap : String → Option Ann) (a : Ann) :
    (aggregateAnn amap a).annId = a.annId := by
  unfold aggregateAnn
  cases childIdsOf a with
  | none => rfl
  | some cids =>
    by_cases h : wordData amap cids = [] <;> simp [h]

theorem mem_removalList_foldl (anns : List Ann) (acc : List String) (i : String) :
    i ∈ anns.foldl
        (fun acc a =>
          match childIdsOf a with
          | none => acc
          | some cids => acc ++ cids) acc ↔
      i ∈ acc ∨ ∃ a ∈ anns, ∃ cids, childIdsOf a = some cids ∧ i ∈ cids := by
  induction anns generalizing acc with
  | nil => simp
  | cons a anns ih =>
    rw [List.foldl_cons, ih]
    cases h : childIdsOf a with
    | none =>
      simp only [h, List.mem_cons, exists_eq_or_imp]
      constructor
      · rintro (hi | hx)
        · exact Or.inl hi
        · exact Or.inr (Or.inr hx)
      · rintro (hi | ⟨cids, hc, _⟩ | hx)
        · exact Or.inl hi
        · exact Option.noConfusion hc
        · exact Or.inr hx
    | some cids0 =>
      simp only [h, List.mem_append, List.mem_cons, exists_eq_or_imp, Option.some.injEq]
      constructor
      · rintro ((hi | hi) | hx)
        · exact Or.inl hi
        · exact Or.inr (Or.inl ⟨cids0, rfl, hi⟩)
        · exact Or.inr (Or.inr hx)
      · rintro (hi | ⟨cids, hceq, hic⟩ | hx)
        · exact Or.inl (Or.inl hi)
        · cases hceq; exact Or.inl (Or.inr hic)
        · exact Or.inr hx

theorem mem_removalList_iff {anns : List Ann} {i : String} :
    i ∈ removalList anns ↔ ∃ a ∈ anns, ∃ cids, childIdsOf a = some cids ∧ i ∈ cids := by
  unfold removalList
  rw [mem_removalList_foldl]
  simp

theorem aggregatePage_anns (p : Page) :
    (aggregatePage p).anns =
      (p.anns.map (aggregateAnn (annMap p.anns))).filter
        (fun a => decide (a.annId ∉ removalList p.anns)) := by
  unfold aggregatePage
  by_cases h : removalList p.anns = []
  · simp only [h, if_pos rfl]
    refine (List.filter_eq_self.mpr ?_).symm
    intro a _
    simp [h]
  · simp [h]

theorem aggregatePage_pbox (p : Page) : (aggregatePage p).pbox = p.pbox := rfl


theorem order_parents_perm (l : List Ann) (pb : RBox) : order_parents l pb ~ l := by
  unfold order_parents
  refine ((orderItems_perm (column_threshold pb) (l.map (mkItem pb))).map _).trans ?_
  rw [List.map_map]
  have : (fun it => Item.ann it) ∘ mkItem pb = id := by
    funext a; rfl
  rw [this, List.map_id]

theorem mem_simplify_anns {p : Page} {b : Ann} (hb : b ∈ (simplify_annotations_data p).anns) :
    ∃ a ∈ p.anns, b = aggregateAnn (annMap p.anns) a ∧ b.annId ∉ removalList p.anns := by
  unfold simplify_annotations_data at hb
  have h1 : b ∈ (aggregatePage p).anns := (order_parents_perm _ _).mem_iff.mp hb
  rw [aggregatePage_anns] at h1
  have h2 := List.mem_filter.mp h1
  obtain ⟨a, ha, rfl⟩ := List.mem_map.mp h2.1
  exact ⟨a, ha, rfl, by simpa using h2.2⟩

/-! ### Case equations for `aggregateAnn` -/

theorem aggregateAnn_of_none {amap : String → Option Ann} {a : Ann}
    (hc : childIdsOf a = none) : aggregateAnn amap a = a := by
  unfold aggregateAnn
  rw [hc]

theorem aggregateAnn_of_empty {amap : String → Option Ann} {a : Ann} {cids : List String}
    (hc : childIdsOf a = some cids) (he : wordData amap cids = []) :
    aggregateAnn amap a = a := by
  unfold aggregateAnn
  rw [hc]
  simp [he]

theorem aggregateAnn_of_some {amap : String → Option Ann} {a : Ann} {cids : List String}
    (hc : childIdsOf a = some cids) (hne : wordData amap cids ≠ []) :
    aggregateAnn amap a =
      { a with
        text := some (mergedText (wordData amap cids))
        relationships :=
          if (relsOf a).filter (fun q => decide (q.1 ≠ "child")) = [] then none
          else some ((relsOf a).filter (fun q => decide (q.1 ≠ "child"))) } := by
  unfold aggregateAnn
  rw [hc]
  simp [hne]

theorem lookup_filter_ne_child :
    ∀ l : List (String × List String),
      ((l.filter (fun q => decide (q.1 ≠ "child"))).lookup "child") = none := by
  intro l
  induction l with
  | nil => rfl
  | cons p l ih =>
    by_cases h : p.1 = "child"
    · simpa [List.filter_cons, h] using ih
    · have hbeq : (("child" : String) == p.1) = false := by
        simpa [beq_iff_eq] using fun he => h he.symm
      simpa [List.filter_cons, h, List.lookup, hbeq] using ih

/-! ### Sortedness instances for the word-data ranks -/

instance : IsTotal WordDatum rankLE := ⟨fun a b => Int.le_total a.reading_order b.reading_order⟩

instance : IsTrans WordDatum rankLE := ⟨fun _ _ _ h1 h2 => le_trans h1 h2⟩

/-! ### Claim theorems -/

/-- C10: the reading-order reconstruction returns a permutation of its input
record list: every input record appears exactly once (same count), nothing is
created, duplicated or dropped. -/
theorem order_parents_is_permutation (l : List Ann) (pb : RBox) :
    order_parents l pb ~ l ∧ ∀ a : Ann, (order_parents l pb).count a = l.count a :=
  ⟨order_parents_perm l pb, fun _ => (order_parents_perm l pb).count_eq _⟩

/-- C2: every id appearing in some record's non-empty child list is absent
from the output collection of `simplify_annotations_data`, regardless of
whether the referenced record resolved, was a word, or contributed text. -/
theorem simplify_removes_referenced_child_ids (p : Page) (a : Ann) (ha : a ∈ p.anns)
    (cids : List String) (hc : childIdsOf a = some cids) (hne : cids ≠ [])
    (i : String) (hi : i ∈ cids) :
    i ∉ (simplify_annotations_data p).anns.map (fun b => b.annId) := by
  intro hmem
  obtain ⟨b, hb, rfl⟩ := List.mem_map.mp hmem
  obtain ⟨a0, _, _, hnot⟩ := mem_simplify_anns hb
  exact hnot (mem_removalList_iff.mpr ⟨a, ha, cids, hc, hi⟩)

/-- Witness for C2 at the concrete text-ordering page. -/
theorem simplify_removes_referenced_child_ids_witness :
    pC1 ∈ pageC1.anns ∧ childIdsOf pC1 = some ["wc", "wa", "wb"] ∧
      (["wc", "wa", "wb"] : List String) ≠ [] ∧
      "wa" ∈ (["wc", "wa", "wb"] : List String) ∧
      "wa" ∉ (simplify_annotations_data pageC1).anns.map (fun b => b.annId) :=
  ⟨by decide, rfl, by decide, by decide,
    simplify_removes_referenced_child_ids pageC1 pC1 (by decide) _ rfl (by decide) _ (by decide)⟩

/-- C1: when a record's child list yields at least one kept word datum, the
record's text is set to the texts of a rank-sorted permutation of the
extracted word data, joined by single spaces; on the concrete page whose word
children carry ranks `[3, 1, 2]` and texts `["c", "a", "b"]` the merged text
is `"a b c"`. -/
theorem aggregate_text_is_rank_sorted_join :
    (∀ (amap : String → Option Ann) (a : Ann) (cids : List String),
        childIdsOf a = some cids → wordData amap cids ≠ [] →
        ∃ s : List WordDatum, s ~ wordData amap cids ∧ s.Sorted rankLE ∧
          (aggregateAnn amap a).text =
            some (String.intercalate " " (s.map (fun w => w.text)))) ∧
      (simplify_annotations_data pageC1).anns.map (fun a => (a.annId, a.text)) =
        [("P", some "a b c")] := by
  constructor
  · intro amap a cids hc hne
    refine ⟨sortWordData (wordData amap cids), List.perm_insertionSort rankLE _,
      List.sorted_insertionSort rankLE _, ?_⟩
    rw [aggregateAnn_of_some hc hne]
    rfl
  · decide

/-- Witness for C1 at the concrete text-ordering page. -/
theorem aggregate_text_is_rank_sorted_join_witness :
    childIdsOf pC1 = some ["wc", "wa", "wb"] ∧
      wordData (annMap pageC1.anns) ["wc", "wa", "wb"] ≠ [] ∧
      ∃ s : List WordDatum, s ~ wordData (annMap pageC1.anns) ["wc", "wa", "wb"] ∧
        s.Sorted rankLE ∧
        (aggregateAnn (annMap pageC1.anns) pC1).text =
          some (String.intercalate " " (s.map (fun w => w.text))) :=
  ⟨rfl, by decide, aggregate_text_is_rank_sorted_join.1 _ pC1 _ rfl (by decide)⟩

/-- C3: a record with a child list is modified exactly when some kept word
child yields non-empty text: on success its text is set, the `child` key is
removed from its relationships and the relationships mapping disappears
exactly when nothing else was in it; with no extracted text the record is
returned entirely unchanged. -/
theorem aggregate_modification_cases (amap : String → Option Ann) (a : Ann)
    (cids : List String) (hc : childIdsOf a = some cids) :
    (wordData amap cids = [] → aggregateAnn amap a = a) ∧
    (wordData amap cids ≠ [] →
      (aggregateAnn amap a).text = some (mergedText (wordData amap cids)) ∧
      relsOf (aggregateAnn amap a) = (relsOf a).filter (fun q => decide (q.1 ≠ "child")) ∧
      childIdsOf (aggregateAnn amap a) = none ∧
      ((aggregateAnn amap a).relationships = none ↔
        (relsOf a).filter (fun q => decide (q.1 ≠ "child")) = [])) := by
  constructor
  · intro h
    exact aggregateAnn_of_empty hc h
  · intro h
    rw [aggregateAnn_of_some hc h]
    refine ⟨rfl, ?_, ?_, ?_⟩
    · show (if (relsOf a).filter (fun q => decide (q.1 ≠ "child")) = [] then none
          else some ((relsOf a).filter (fun q => decide (q.1 ≠ "child")))).getD [] =
        (relsOf a).filter (fun q => decide (q.1 ≠ "child"))
      by_cases hr : (relsOf a).filter (fun q => decide (q.1 ≠ "child")) = []
      · rw [if_pos hr, hr]; rfl
      · rw [if_neg hr]; rfl
    · show ((if (relsOf a).filter (fun q => decide (q.1 ≠ "child")) = [] then none
          else some ((relsOf a).filter (fun q => decide (q.1 ≠ "child")))).getD []).lookup
          "child" = none
      by_cases hr : (relsOf a).filter (fun q => decide (q.1 ≠ "child")) = []
      · rw [if_pos hr]; rfl
      · rw [if_neg hr]
        exact lookup_filter_ne_child (relsOf a)
    · show (if (relsOf a).filter (fun q => decide (q.1 ≠ "child")) = [] then none
          else some ((relsOf a).filter (fun q => decide (q.1 ≠ "child")))) = none ↔
        (relsOf a).filter (fun q => decide (q.1 ≠ "child")) = []
      by_cases hr : (relsOf a).filter (fun q => decide (q.1 ≠ "child")) = []
      · rw [if_pos hr]; exact iff_of_true rfl hr
      · rw [if_neg hr]; exact iff_of_false (by simp) hr

/-- Witness for C3: the success branch on the text-ordering page and the
no-text branch on the empty-word page. -/
theorem aggregate_modification_cases_witness :
    childIdsOf pC1 = some ["wc", "wa", "wb"] ∧
      wordData (annMap pageC1.anns) ["wc", "wa", "wb"] ≠ [] ∧
      (aggregateAnn (annMap pageC1.anns) pC1).text =
        some (mergedText (wordData (annMap pageC1.anns) ["wc", "wa", "wb"])) ∧
      childIdsOf (aggregateAnn (annMap pageC1.anns) pC1) = none ∧
      (aggregateAnn (annMap pageC1.anns) pC1).relationships = none ∧
      childIdsOf pEmptyWd = some ["w0"] ∧
      wordData (annMap pageE.anns) ["w0"] = [] ∧
      aggregateAnn (annMap pageE.anns) pEmptyWd = pEmptyWd := by
  have h1 := aggregate_modification_cases (annMap pageC1.anns) pC1 ["wc", "wa", "wb"] rfl
  have h2 := aggregate_modification_cases (annMap pageE.anns) pEmptyWd ["w0"] rfl
  have hne : wordData (annMap pageC1.anns) ["wc", "wa", "wb"] ≠ [] := by decide
  have he : wordData (annMap pageE.anns) ["w0"] = [] := by decide
  obtain ⟨ht, _, hcid, hrel⟩ := h1.2 hne
  exact ⟨rfl, hne, ht, hcid, hrel.mpr (by decide), rfl, he, h2.1 he⟩

/-- C4: the normalizer keeps coordinates (cast to integer, missing ones 0)
when `absolute_coords` is true or absent, and otherwise scales x-coordinates
by the page width and y-coordinates by the page height with truncation; the
spec's concrete half-page box on the 1000-square page gives 500,0,1000,500. -/
theorem to_absolute_bbox_cases (bbox : BBoxRaw) (pb : RBox) :
    (bbox.absolute_coords.getD true = true →
      to_absolute_bbox bbox pb =
        ⟨truncQ (bbox.ulx.getD 0), truncQ (bbox.uly.getD 0),
         truncQ (bbox.lrx.getD 0), truncQ (bbox.lry.getD 0)⟩) ∧
    (bbox.absolute_coords.getD true = false →
      to_absolute_bbox bbox pb =
        ⟨truncQ ((bbox.ulx.getD 0) * (pageW pb : ℚ)),
         truncQ ((bbox.uly.getD 0) * (pageH pb : ℚ)),
         truncQ ((bbox.lrx.getD 0) * (pageW pb : ℚ)),
         truncQ ((bbox.lry.getD 0) * (pageH pb : ℚ))⟩) ∧
    to_absolute_bbox ⟨some (1 / 2), some 0, some 1, some (1 / 2), some false⟩ pb1000 =
      ⟨500, 0, 1000, 500⟩ := by
  refine ⟨fun h => ?_, fun h => ?_, by decide⟩
  · simp [to_absolute_bbox, h]
  · simp [to_absolute_bbox, h]

/-- Witness for C4: an absolute box is cast unchanged, a normalized box is
scaled. -/
theorem to_absolute_bbox_cases_witness :
    ((⟨some 7, none, some 9, none, none⟩ : BBoxRaw).absolute_coords.getD true = true) ∧
      to_absolute_bbox ⟨some 7, none, some 9, none, none⟩ pb1000 = ⟨7, 0, 9, 0⟩ ∧
      ((⟨some (1 / 2), some 0, some 1, some (1 / 2), some false⟩ :
          BBoxRaw).absolute_coords.getD true = false) ∧
      to_absolute_bbox ⟨some (1 / 2), some 0, some 1, some (1 / 2), some false⟩ pb1000 =
        ⟨500, 0, 1000, 500⟩ :=
  ⟨rfl,
   ((to_absolute_bbox_cases ⟨some 7, none, some 9, none, none⟩ pb1000).1 rfl).trans (by decide),
   rfl,
   ((to_absolute_bbox_cases ⟨some (1 / 2), some 0, some 1, some (1 / 2), some false⟩
      pb1000).2.1 rfl).trans (by decide)⟩

/-- C5: on the 1000-wide page the threshold is 80 and the three records at
x-centers 100, 900, 920 cluster (from a scrambled input order) into the
columns `{100}` and `{900, 920}` (final centers 100 and 910), with the
100-column emitted entirely first. -/
theorem clustering_concrete :
    column_threshold pb1000 = 80 ∧
      (buildColumns 80 (([a920, a100, a900].map (mkItem pb1000)).insertionSort cxLE)).map
          (fun c => (c.center, c.members.map (fun m => m.ann.annId))) =
        [(100, ["A1"]), (910, ["A2", "A3"])] ∧
      (order_parents [a920, a100, a900] pb1000).map (fun a => a.annId) =
        ["A1", "A2", "A3"] := by
  refine ⟨by decide, by decide, by decide⟩

/-- The threshold formula as the spec states it: `max(0.08 * page_width, 60)`
with no truncation. -/
def column_threshold_spec (pb : RBox) : ℚ := max ((0.08 : ℚ) * (pageW pb : ℚ)) 60

/-- C6 counterexample: on a page of width 1001 the code's threshold is 80,
but the spec formula gives 80.08, so the claimed equality fails. -/
theorem column_threshold_cex :
    (column_threshold pb1001 : ℚ) ≠ column_threshold_spec pb1001 ∧
      column_threshold pb1001 = 80 ∧ column_threshold_spec pb1001 = 2002 / 25 := by
  refine ⟨by decide, by decide, by decide⟩

/-- C6 amended: the code truncates `0.08 * page_width` to an integer before
taking the max with 60; the result agrees with the spec's untruncated formula
exactly when `0.08 * page_width` is at most 60 or is itself an integer. -/
theorem column_threshold_amended (pb : RBox) :
    column_threshold pb = max ⌊(0.08 : ℚ) * (pageW pb : ℚ)⌋ 60 ∧
      ((column_threshold pb : ℚ) = column_threshold_spec pb ↔
        (0.08 : ℚ) * (pageW pb : ℚ) ≤ 60 ∨
          ∃ z : ℤ, (0.08 : ℚ) * (pageW pb : ℚ) = (z : ℚ)) := by
  have hW : (1 : ℤ) ≤ pageW pb := le_max_left 1 _
  have hWq : (1 : ℚ) ≤ (pageW pb : ℚ) := by exact_mod_cast hW
  have hq0 : (0 : ℚ) ≤ (0.08 : ℚ) * (pageW pb : ℚ) := by positivity
  have hfloor : column_threshold pb = max ⌊(0.08 : ℚ) * (pageW pb : ℚ)⌋ 60 := by
    unfold column_threshold truncQ
    rw [if_pos hq0]
  refine ⟨hfloor, ?_⟩
  set q : ℚ := (0.08 : ℚ) * (pageW pb : ℚ) with hqdef
  have hcast : (column_threshold pb : ℚ) = max ((⌊q⌋ : ℚ)) 60 := by
    rw [hfloor]
    push_cast
    rfl
  by_cases hle : q ≤ 60
  · have h1 : (⌊q⌋ : ℚ) ≤ 60 := le_trans (Int.floor_le q) hle
    have h2 : (column_threshold pb : ℚ) = 60 := by
      rw [hcast, max_eq_right h1]
    have h3 : column_threshold_spec pb = 60 := by
      unfold column_threshold_spec
      rw [← hqdef, max_eq_right hle]
    rw [h2, h3]
    exact iff_of_true rfl (Or.inl hle)
  · push_neg at hle
    have h60 : ((60 : ℤ) : ℚ) ≤ q := by exact_mod_cast le_of_lt hle
    have h1 : (60 : ℤ) ≤ ⌊q⌋ := Int.le_floor.mpr h60
    have h1q : (60 : ℚ) ≤ (⌊q⌋ : ℚ) := by exact_mod_cast h1
    have h2 : (column_threshold pb : ℚ) = (⌊q⌋ : ℚ) := by
      rw [hcast, max_eq_left h1q]
    have h3 : column_threshold_spec pb = q := by
      unfold column_threshold_spec
      rw [← hqdef, max_eq_left (le_of_lt (lt_of_le_of_lt (by norm_num) hle))]
    rw [h2, h3]
    constructor
    · intro heq
      exact Or.inr ⟨⌊q⌋, heq.symm⟩
    · rintro (hc | ⟨z, hz⟩)
      · exact absurd hc (not_le.mpr hle)
      · rw [hz, Int.floor_intCast]

/-- Witness for C6's amended statement at the default 1000-wide page. -/
theorem column_threshold_amended_witness :
    column_threshold pb1000 = max ⌊(0.08 : ℚ) * (pageW pb1000 : ℚ)⌋ 60 ∧
      (column_threshold pb1000 : ℚ) = column_threshold_spec pb1000 :=
  ⟨(column_threshold_amended pb1000).1,
   (column_threshold_amended pb1000).2.mpr (Or.inr ⟨80, by decide⟩)⟩

/-- A word record that has no `reading_order` entry in its sub-categories. -/
def noReadingOrder (w : Ann) : Prop :=
  ((w.sub_categories.getD []).lookup "reading_order") = none

instance (w : Ann) : Decidable (noReadingOrder w) :=
  inferInstanceAs (Decidable (_ = none))

/-- Parent with a rank-1 word and an unranked word, for the C7 witness. -/
def pC7w : Ann := ⟨"P", some "table", none, none, some [("child", ["r", "u"])], none, none⟩

/-- Page holding `pC7w` and its two word children. -/
def pageC7w : Page := ⟨none, [pC7w, mkWord "r" "hello" (some 1), mkWord "u" "z" none]⟩

/-- C7 counterexample: on `pageC7` the word lacking a `reading_order` entry
gets the sentinel 999999 and is merged BEFORE the word carrying explicit rank
1000000, so an unranked word is not ordered after every ranked word. -/
theorem unranked_word_not_always_last_cex :
    noReadingOrder (mkWord "u" "a" none) ∧
      extract_reading_order (mkWord "u" "a" none) = 999999 ∧
      (noReadingOrder (mkWord "v" "b" (some 1000000)) = False) ∧
      (sortWordData (wordData (annMap pageC7.anns) ["u", "v"])).map
          (fun w => (w.text, w.reading_order)) =
        [("a", 999999), ("b", 1000000)] ∧
      (aggregateAnn (annMap pageC7.anns) pC7).text = some "a b" := by
  refine ⟨by decide, by decide, ?_, by decide, by decide⟩
  simp only [eq_iff_iff, iff_false]
  decide

/-- C7 amended: a word without a `reading_order` entry receives the sentinel
rank 999999, and in the rank-sorted word data every entry whose rank is below
the sentinel comes strictly before every sentinel-ranked entry. -/
theorem unranked_words_after_subsentinel_ranks :
    (∀ w : Ann, noReadingOrder w → extract_reading_order w = 999999) ∧
      ∀ (amap : String → Option Ann) (cids : List String) (i j : ℕ)
        (hi : i < (sortWordData (wordData amap cids)).length)
        (hj : j < (sortWordData (wordData amap cids)).length),
        ((sortWordData (wordData amap cids)).get ⟨i, hi⟩).reading_order < 999999 →
        ((sortWordData (wordData amap cids)).get ⟨j, hj⟩).reading_order = 999999 →
        i < j := by
  constructor
  · intro w hw
    unfold extract_reading_order
    unfold noReadingOrder at hw
    cases hsc : w.sub_categories with
    | none => rfl
    | some scs =>
      rw [hsc] at hw
      simp only [Option.getD_some] at hw
      simp [hw]
  · intro amap cids i j hi hj hlt heq
    by_contra hnot
    push_neg at hnot
    have hsorted : (sortWordData (wordData amap cids)).Sorted rankLE :=
      List.sorted_insertionSort rankLE _
    rcases lt_or_eq_of_le hnot with hlt2 | heq2
    · have := List.pairwise_iff_get.mp hsorted ⟨j, hj⟩ ⟨i, hi⟩ hlt2
      unfold rankLE at this
      omega
    · subst heq2
      have : (999999 : ℤ) < 999999 := by
        rw [heq] at hlt
        exact hlt
      omega

/-- Witness for C7's amended statement on the rank-1 plus unranked page. -/
theorem unranked_words_after_subsentinel_ranks_witness :
    noReadingOrder (mkWord "u" "z" none) ∧
      extract_reading_order (mkWord "u" "z" none) = 999999 ∧
      (sortWordData (wordData (annMap pageC7w.anns) ["r", "u"])).map
          (fun w => w.reading_order) = [1, 999999] ∧
      (0 : ℕ) < 1 := by
  refine ⟨by decide, unranked_words_after_subsentinel_ranks.1 _ (by decide), by decide, ?_⟩
  exact unranked_words_after_subsentinel_ranks.2 (annMap pageC7w.anns) ["r", "u"] 0 1
    (by decide) (by decide) (by decide) (by decide)

/-- C8 counterexample: on the chain `A -> B -> C` (C referenced only in the
child list of B, itself a child of A) the grandchild C IS removed from the
output, contrary to the claim. -/
theorem grandchild_removed_cex :
    childIdsOf annA = some ["B"] ∧ childIdsOf annB = some ["C"] ∧
      pageC8.anns.map (fun a => a.annId) = ["A", "B", "C"] ∧
      (simplify_annotations_data pageC8).anns.map (fun a => a.annId) = ["A"] := by
  refine ⟨rfl, rfl, by decide, by decide⟩

/-- C8 amended: the aggregation scan covers every record in the collection,
including records that are themselves listed as children, so the child ids of
such a record are removed from the output as well (merging still only uses a
record's direct children). -/
theorem child_links_of_child_records_also_removed (p : Page) (pa b : Ann)
    (hpa : pa ∈ p.anns) (hb : b ∈ p.anns) (pcids : List String)
    (hpc : childIdsOf pa = some pcids) (hbmem : b.annId ∈ pcids)
    (cids : List String) (hc : childIdsOf b = some cids) (i : String) (hi : i ∈ cids) :
    i ∉ (simplify_annotations_data p).anns.map (fun x => x.annId) := by
  intro hmem
  obtain ⟨x, hx, rfl⟩ := List.mem_map.mp hmem
  obtain ⟨a0, _, _, hnot⟩ := mem_simplify_anns hx
  exact hnot (mem_removalList_iff.mpr ⟨b, hb, cids, hc, hi⟩)

/-! ### A toolkit for stable insertion sort

`List.insertionSort` is a stable sort, in the same sense as Python's
`list.sort`; these lemmas capture the stability and uniqueness facts needed
for the idempotence claim. -/

section SortToolkit

variable {α : Type} (r : α → α → Prop) [DecidableRel r]

/-- Boolean membership test for the `r`-equivalence class of `x`. -/
def inClass (x y : α) : Bool := decide (r x y ∧ r y x)

theorem inClass_true_iff (x y : α) : inClass r x y = true ↔ (r x y ∧ r y x) := by
  simp [inClass]

theorem filter_orderedInsert_of_not (a : α) (p : α → Bool) (hp : p a = false) :
    ∀ u : List α, (u.orderedInsert r a).filter p = u.filter p := by
  intro u
  induction u with
  | nil => simp [List.orderedInsert, hp]
  | cons b u ih =>
    by_cases h : r a b
    · simp [List.orderedInsert, if_pos h, List.filter_cons, hp]
    · simp only [List.orderedInsert, if_neg h, List.filter_cons]
      cases hb : p b <;> simp [hb, ih]

theorem filter_orderedInsert_of_class [IsTrans α r] (x a : α) (h1 : r x a) (h2 : r a x) :
    ∀ u : List α,
      (u.orderedInsert r a).filter (inClass r x) = a :: u.filter (inClass r x) := by
  intro u
  induction u with
  | nil => simp [List.orderedInsert, List.filter_cons, inClass, h1, h2]
  | cons b u ih =>
    by_cases h : r a b
    · simp only [List.orderedInsert, if_pos h, List.filter_cons]
      have ha : inClass r x a = true := (inClass_true_iff r x a).mpr ⟨h1, h2⟩
      rw [ha]
      simp
    · have hb : inClass r x b = false := by
        rw [Bool.eq_false_iff]
        intro hcl
        obtain ⟨hxb, _⟩ := (inClass_true_iff r x b).mp hcl
        exact h (Trans.trans h2 hxb)
      simp only [List.orderedInsert, if_neg h, List.filter_cons, hb]
      simp only [Bool.false_eq_true, if_false, ih]

/-- Stability of insertion sort: the elements of any single `r`-equivalence
class keep their original relative order. -/
theorem filter_insertionSort_class [IsTrans α r] (x : α) :
    ∀ l : List α, (l.insertionSort r).filter (inClass r x) = l.filter (inClass r x) := by
  intro l
  induction l with
  | nil => rfl
  | cons a l ih =>
    simp only [List.insertionSort]
    by_cases ha : r x a ∧ r a x
    · rw [filter_orderedInsert_of_class r x a ha.1 ha.2, ih, List.filter_cons]
      have : inClass r x a = true := (inClass_true_iff r x a).mpr ha
      rw [this]
      simp
    · have hfa : inClass r x a = false := by
        rw [Bool.eq_false_iff]
        intro hcl
        exact ha ((inClass_true_iff r x a).mp hcl)
      rw [filter_orderedInsert_of_not r a _ hfa, ih, List.filter_cons, hfa]
      simp

/-- Uniqueness: two sorted lists that are permutations of each other and agree
on every `r`-class filter are equal. -/
theorem eq_of_sorted_of_perm_of_class_filters [IsTotal α r] [IsTrans α r] :
    ∀ {l₁ l₂ : List α}, l₁ ~ l₂ → l₁.Sorted r → l₂.Sorted r →
      (∀ x, l₁.filter (inClass r x) = l₂.filter (inClass r x)) → l₁ = l₂ := by
  intro l₁
  induction l₁ with
  | nil =>
    intro l₂ hp _ _ _
    exact hp.nil_eq
  | cons a t₁ ih =>
    intro l₂ hp hs₁ hs₂ hf
    cases l₂ with
    | nil => exact absurd hp.symm.nil_eq (by simp)
    | cons b t₂ =>
      have hraa : r a a := (IsTotal.total (r := r) a a).elim id id
      have hab : a = b := by
        rcases eq_or_ne b a with hba | hba
        · exact hba.symm
        · have hbmem : b ∈ a :: t₁ := hp.symm.subset (List.mem_cons_self b t₂)
          have hamem : a ∈ b :: t₂ := hp.subset (List.mem_cons_self a t₁)
          have hrab : r a b := by
            rcases List.mem_cons.mp hbmem with h | h
            · exact absurd h hba
            · exact List.rel_of_sorted_cons hs₁ b h
          have hrba : r b a := by
            rcases List.mem_cons.mp hamem with h | h
            · exact (h ▸ hraa)
            · exact List.rel_of_sorted_cons hs₂ a h
          have hfa := hf a
          rw [List.filter_cons, List.filter_cons] at hfa
          have h1 : inClass r a a = true := (inClass_true_iff r a a).mpr ⟨hraa, hraa⟩
          have h2 : inClass r a b = true := (inClass_true_iff r a b).mpr ⟨hrab, hrba⟩
          rw [h1, h2] at hfa
          simp only [if_true] at hfa
          exact (List.cons.injEq _ _ _ _).mp hfa |>.1
      subst hab
      have hp' : t₁ ~ t₂ := (List.perm_cons a).mp hp
      have hf' : ∀ x, t₁.filter (inClass r x) = t₂.filter (inClass r x) := by
        intro x
        have := hf x
        rw [List.filter_cons, List.filter_cons] at this
        cases h : inClass r x a
        · rwa [h] at this
        · rw [h] at this
          simpa using this
      rw [ih hp' (List.Sorted.of_cons hs₁) (List.Sorted.of_cons hs₂) hf']

theorem filter_comm (p q : α → Bool) (l : List α) :
    (l.filter p).filter q = (l.filter q).filter p := by
  rw [List.filter_filter, List.filter_filter]
  exact List.filter_congr (fun a _ => by rw [Bool.and_comm])

/-- Flattening is invariant under permutations whose non-empty entries are
pairwise equal. -/
theorem flatten_eq_of_perm_of_pairwise {β : Type} :
    ∀ {M N : List (List β)}, M ~ N →
      M.Pairwise (fun u w => u ≠ [] → w ≠ [] → u = w) → M.flatten = N.flatten := by
  have hsymm : ∀ {u w : List β}, (u ≠ [] → w ≠ [] → u = w) → (w ≠ [] → u ≠ [] → w = u) :=
    fun h hw hu => (h hu hw).symm
  intro M N hp
  induction hp with
  | nil => intro _; rfl
  | cons x p ih =>
    intro hpr
    simp only [List.flatten_cons]
    rw [ih hpr.of_cons]
  | swap x y l =>
    intro hpr
    simp only [List.flatten_cons]
    rcases eq_or_ne y ([] : List β) with hy | hy
    · rw [hy]; simp
    · rcases eq_or_ne x ([] : List β) with hx | hx
      · rw [hx]; simp
      · have := (List.pairwise_cons.mp hpr).1 x (List.mem_cons_self x l) hy hx
        rw [this]
  | trans p₁ p₂ ih₁ ih₂ =>
    intro hpr
    refine (ih₁ hpr).trans (ih₂ ?_)
    exact (p₁.pairwise_iff hsymm).mp hpr

/-- Two concatenation decompositions with componentwise equal lengths are
equal. -/
theorem eq_of_flatten_eq_of_length_eq {β : Type} :
    ∀ {M N : List (List β)}, List.Forall₂ (fun u v => u.length = v.length) M N →
      M.flatten = N.flatten → M = N := by
  intro M N h
  induction h with
  | nil => intro _; rfl
  | cons h1 h2 ih =>
    intro hf
    simp only [List.flatten_cons] at hf
    obtain ⟨he, ht⟩ := List.append_inj hf h1
    rw [he, ih ht]

theorem forall₂_of_map_eq {β : Type} (f : α → β) :
    ∀ {l₁ l₂ : List α}, l₁.map f = l₂.map f →
      List.Forall₂ (fun a b => f a = f b) l₁ l₂ := by
  intro l₁
  induction l₁ with
  | nil =>
    intro l₂ h
    cases l₂ with
    | nil => exact .nil
    | cons b t => simp at h
  | cons a t ih =>
    intro l₂ h
    cases l₂ with
    | nil => simp at h
    | cons b t₂ =>
      simp only [List.map_cons, List.cons.injEq] at h
      exact .cons h.1 (ih h.2)

theorem map_eq_of_forall₂ {β : Type} (f g : α → β) :
    ∀ {l₁ l₂ : List α}, List.Forall₂ (fun a b => f a = g b) l₁ l₂ →
      l₁.map f = l₂.map g := by
  intro l₁ l₂ h
  induction h with
  | nil => rfl
  | cons h1 _ ih => simp [h1, ih]

theorem forall₂_orderedInsert {Q : α → α → Prop}
    (hQ : ∀ {a b c d}, Q a b → Q c d → (r a c ↔ r b d)) :
    ∀ {u v : List α} (a b : α), Q a b → List.Forall₂ Q u v →
      List.Forall₂ Q (u.orderedInsert r a) (v.orderedInsert r b) := by
  intro u v a b hab h
  induction h with
  | nil => exact .cons hab .nil
  | @cons x y u' v' hxy htail ih =>
    by_cases hr : r a x
    · have hr' : r b y := (hQ hab hxy).mp hr
      simp only [List.orderedInsert, if_pos hr, if_pos hr']
      exact .cons hab (.cons hxy htail)
    · have hr' : ¬ r b y := fun h => hr ((hQ hab hxy).mpr h)
      simp only [List.orderedInsert, if_neg hr, if_neg hr']
      exact .cons hxy ih

theorem forall₂_insertionSort {Q : α → α → Prop}
    (hQ : ∀ {a b c d}, Q a b → Q c d → (r a c ↔ r b d)) :
    ∀ {u v : List α}, List.Forall₂ Q u v →
      List.Forall₂ Q (u.insertionSort r) (v.insertionSort r) := by
  intro u v h
  induction h with
  | nil => exact .nil
  | cons hab _ ih => exact forall₂_orderedInsert r hQ _ _ hab ih

end SortToolkit

/-! ### Run-block characterization of the clustering walk on sorted input

On a `cx`-sorted input the first-fit walk only ever places an item in the most
recently created column: every earlier column's running center has been left
strictly more than the threshold below all remaining items. `goCols` captures
this single-active-column behavior; `buildColumns` coincides with it on
sorted input. -/

/-- Single-active-column clustering walk. -/
def goCols (T : Int) : Col → List Item → List Col
  | cur, [] => [cur]
  | cur, y :: ys =>
    if |y.cx - cur.center| ≤ (T : ℚ) then
      goCols T ⟨cxSum (cur.members ++ [y]) / (((cur.members ++ [y]).length : ℚ)),
                cur.members ++ [y]⟩ ys
    else
      cur :: goCols T ⟨y.cx, [y]⟩ ys

/-- Run-block clustering of a whole list. -/
def greedyCols (T : Int) : List Item → List Col
  | [] => []
  | x :: xs => goCols T ⟨x.cx, [x]⟩ xs

theorem mean_le_of_forall_le {ms : List Item} (hne : ms ≠ []) {b : ℚ}
    (h : ∀ m ∈ ms, m.cx ≤ b) : cxSum ms / (ms.length : ℚ) ≤ b := by
  have hlen : 0 < (ms.length : ℚ) := by
    exact_mod_cast List.length_pos.mpr hne
  rw [div_le_iff hlen]
  have hsum : cxSum ms ≤ (ms.length : ℚ) * b := by
    unfold cxSum
    calc (ms.map (fun m => m.cx)).sum ≤ (ms.map (fun m => m.cx)).length • b :=
          List.sum_le_card_nsmul _ b (by simpa using h)
      _ = (ms.length : ℚ) * b := by simp [nsmul_eq_mul]
  linarith

theorem mean_mono_append {ms : List Item} (hne : ms ≠ []) {y : Item}
    (h : cxSum ms / (ms.length : ℚ) ≤ y.cx) :
    cxSum ms / (ms.length : ℚ) ≤ cxSum (ms ++ [y]) / (((ms ++ [y]).length : ℚ)) := by
  have hn : 0 < (ms.length : ℚ) := by exact_mod_cast List.length_pos.mpr hne
  have hsum : cxSum (ms ++ [y]) = cxSum ms + y.cx := by simp [cxSum]
  have hlen : (((ms ++ [y]).length : ℚ)) = (ms.length : ℚ) + 1 := by
    push_cast [List.length_append, List.length_singleton]
    ring
  rw [hsum, hlen]
  rw [div_le_div_iff hn (by linarith)]
  rw [div_le_iff hn] at h
  ring_nf
  nlinarith [h]

theorem shrink_dist {ms : List Item} (hne : ms ≠ []) {y : Item} {T : Int}
    (h : |y.cx - cxSum ms / (ms.length : ℚ)| ≤ (T : ℚ)) :
    |y.cx - cxSum (ms ++ [y]) / (((ms ++ [y]).length : ℚ))| ≤ (T : ℚ) := by
  have hn : 0 < (ms.length : ℚ) := by exact_mod_cast List.length_pos.mpr hne
  have hsum : cxSum (ms ++ [y]) = cxSum ms + y.cx := by simp [cxSum]
  have hlen : (((ms ++ [y]).length : ℚ)) = (ms.length : ℚ) + 1 := by
    push_cast [List.length_append, List.length_singleton]
    ring
  rw [hsum, hlen]
  have key : y.cx - (cxSum ms + y.cx) / ((ms.length : ℚ) + 1) =
      ((ms.length : ℚ) / ((ms.length : ℚ) + 1)) * (y.cx - cxSum ms / (ms.length : ℚ)) := by
    field_simp
    ring
  rw [key, abs_mul]
  have h1 : |(ms.length : ℚ) / ((ms.length : ℚ) + 1)| = (ms.length : ℚ) / ((ms.length : ℚ) + 1) :=
    abs_of_nonneg (by positivity)
  have h2 : (ms.length : ℚ) / ((ms.length : ℚ) + 1) ≤ 1 := by
    rw [div_le_one (by linarith)]
    linarith
  rw [h1]
  calc (ms.length : ℚ) / ((ms.length : ℚ) + 1) * |y.cx - cxSum ms / (ms.length : ℚ)| ≤
        1 * |y.cx - cxSum ms / (ms.length : ℚ)| := by
          apply mul_le_mul_of_nonneg_right h2 (abs_nonneg _)
    _ = |y.cx - cxSum ms / (ms.length : ℚ)| := one_mul _
    _ ≤ (T : ℚ) := h

theorem goCols_flatten (T : Int) :
    ∀ (rest : List Item) (cur : Col),
      ((goCols T cur rest).map Col.members).flatten = cur.members ++ rest := by
  intro rest
  induction rest with
  | nil => intro cur; simp [goCols]
  | cons y ys ih =>
    intro cur
    by_cases h : |y.cx - cur.center| ≤ (T : ℚ)
    · simp only [goCols, if_pos h]
      rw [ih]
      simp
    · simp only [goCols, if_neg h, List.map_cons, List.flatten_cons]
      rw [ih]
      simp

theorem greedyCols_flatten (T : Int) (s : List Item) :
    ((greedyCols T s).map Col.members).flatten = s := by
  cases s with
  | nil => rfl
  | cons x xs =>
    show ((goCols T ⟨x.cx, [x]⟩ xs).map Col.members).flatten = x :: xs
    rw [goCols_flatten]
    rfl

theorem placeItem_append_of_reject (T : Int) (x : Item) :
    ∀ (closed : List Col), (∀ c ∈ closed, ¬ |x.cx - c.center| ≤ (T : ℚ)) →
      ∀ rest : List Col, placeItem T x (closed ++ rest) = closed ++ placeItem T x rest := by
  intro closed h
  induction closed with
  | nil => intro rest; rfl
  | cons c cs ih =>
    intro rest
    simp only [List.cons_append, placeItem, if_neg (h c (List.mem_cons_self c cs))]
    exact congrArg (fun l => c :: l) (ih (fun d hd => h d (List.mem_cons_of_mem c hd)) rest)

theorem buildColumns_eq_greedy_aux (T : Int) :
    ∀ (rest : List Item) (closed : List Col) (cur : Col),
      List.Sorted cxLE rest →
      (∀ c ∈ closed, ∀ y ∈ rest, (T : ℚ) < y.cx - c.center) →
      (∀ m ∈ cur.members, ∀ y ∈ rest, m.cx ≤ y.cx) →
      cur.members ≠ [] →
      cur.center = cxSum cur.members / (cur.members.length : ℚ) →
      rest.foldl (fun cols it => placeItem T it cols) (closed ++ [cur]) =
        closed ++ goCols T cur rest := by
  intro rest
  induction rest with
  | nil =>
    intro closed cur _ _ _ _ _
    simp [goCols]
  | cons y ys ih =>
    intro closed cur hs hclosed hcur hne hctr
    rw [List.foldl_cons]
    have hskip : ∀ c ∈ closed, ¬ |y.cx - c.center| ≤ (T : ℚ) := by
      intro c hc hle
      have h1 := hclosed c hc y (List.mem_cons_self y ys)
      have h2 : y.cx - c.center ≤ |y.cx - c.center| := le_abs_self _
      linarith
    rw [placeItem_append_of_reject T y closed hskip [cur]]
    by_cases hfit : |y.cx - cur.center| ≤ (T : ℚ)
    · have hplace : placeItem T y [cur] =
          [⟨cxSum (cur.members ++ [y]) / (((cur.members ++ [y]).length : ℚ)),
            cur.members ++ [y]⟩] := by
        simp [placeItem, hfit]
      rw [hplace]
      rw [ih closed _ (List.Sorted.of_cons hs) ?_ ?_ ?_ ?_]
      · simp only [goCols, if_pos hfit]
      · intro c hc z hz
        have h1 := hclosed c hc y (List.mem_cons_self y ys)
        have hyz : cxLE y z := List.rel_of_sorted_cons hs z hz
        unfold cxLE at hyz
        linarith
      · intro m hm z hz
        rcases List.mem_append.mp hm with hm | hm
        · exact hcur m hm z (List.mem_cons_of_mem y hz)
        · have hm' : m = y := by simpa using hm
          subst hm'
          exact List.rel_of_sorted_cons hs z hz
      · simp
      · rfl
    · have hplace : placeItem T y [cur] = [cur, ⟨y.cx, [y]⟩] := by
        simp [placeItem, hfit]
      rw [hplace]
      have hmean : cur.center ≤ y.cx := by
        rw [hctr]
        exact mean_le_of_forall_le hne (fun m hm => hcur m hm y (List.mem_cons_self y ys))
      have hgt : (T : ℚ) < y.cx - cur.center := by
        by_contra hle
        push_neg at hle
        exact hfit (by rw [abs_of_nonneg (by linarith)]; exact hle)
      have hsplit : closed ++ [cur, (⟨y.cx, [y]⟩ : Col)] =
          (closed ++ [cur]) ++ [(⟨y.cx, [y]⟩ : Col)] := by simp
      rw [hsplit]
      rw [ih (closed ++ [cur]) ⟨y.cx, [y]⟩ (List.Sorted.of_cons hs) ?_ ?_ ?_ ?_]
      · simp only [goCols, if_neg hfit]
        simp
      · intro c hc z hz
        have hyz : cxLE y z := List.rel_of_sorted_cons hs z hz
        unfold cxLE at hyz
        rcases List.mem_append.mp hc with hc | hc
        · have h1 := hclosed c hc y (List.mem_cons_self y ys)
          linarith
        · have hc' : c = cur := by simpa using hc
          subst hc'
          linarith
      · intro m hm z hz
        have hm' : m = y := by simpa using hm
        subst hm'
        exact List.rel_of_sorted_cons hs z hz
      · simp
      · simp [cxSum]

theorem buildColumns_eq_greedy (T : Int) (s : List Item) (hs : List.Sorted cxLE s) :
    buildColumns T s = greedyCols T s := by
  cases s with
  | nil => rfl
  | cons x xs =>
    show xs.foldl (fun cols it => placeItem T it cols) (placeItem T x []) =
      goCols T ⟨x.cx, [x]⟩ xs
    have h0 : placeItem T x [] = ([] : List Col) ++ [(⟨x.cx, [x]⟩ : Col)] := rfl
    rw [h0, buildColumns_eq_greedy_aux T xs [] ⟨x.cx, [x]⟩ (List.Sorted.of_cons hs)
      (by intro c hc; simp at hc)
      (by
        intro m hm z hz
        have hm' : m = x := by simpa using hm
        subst hm'
        exact List.rel_of_sorted_cons hs z hz)
      (by simp)
      (by simp [cxSum])]
    rfl

/-- A column as produced by the walk: non-empty members, center the mean. -/
def colGood (c : Col) : Prop :=
  c.members ≠ [] ∧ c.center = cxSum c.members / (c.members.length : ℚ)

/-- Everything in `c` lies strictly left of everything in `d`. -/
def colLT (c d : Col) : Prop := ∀ a ∈ c.members, ∀ b ∈ d.members, a.cx < b.cx

theorem goCols_master (T : Int) (hT : 0 ≤ T) :
    ∀ (rest : List Item) (cur : Col),
      List.Sorted cxLE rest →
      (∀ m ∈ cur.members, ∀ y ∈ rest, m.cx ≤ y.cx) →
      cur.members ≠ [] →
      cur.center = cxSum cur.members / (cur.members.length : ℚ) →
      (∀ m ∈ cur.members, m.cx ≤ cur.center + (T : ℚ)) →
      (∀ c ∈ goCols T cur rest, colGood c) ∧ List.Pairwise colLT (goCols T cur rest) := by
  intro rest
  induction rest with
  | nil =>
    intro cur _ _ hne hctr _
    constructor
    · intro c hc
      have hc' : c = cur := by simpa [goCols] using hc
      subst hc'
      exact ⟨hne, hctr⟩
    · simp [goCols]
  | cons y ys ih =>
    intro cur hs hcur hne hctr hnear
    by_cases hfit : |y.cx - cur.center| ≤ (T : ℚ)
    · simp only [goCols, if_pos hfit]
      have hmean : cur.center ≤ y.cx := by
        rw [hctr]
        exact mean_le_of_forall_le hne (fun m hm => hcur m hm y (List.mem_cons_self y ys))
      have hmono : cur.center ≤
          cxSum (cur.members ++ [y]) / (((cur.members ++ [y]).length : ℚ)) := by
        rw [hctr]
        exact mean_mono_append hne (by rw [← hctr]; exact hmean)
      apply ih _ (List.Sorted.of_cons hs) ?_ (by simp) rfl ?_
      · intro m hm z hz
        rcases List.mem_append.mp hm with hm | hm
        · exact hcur m hm z (List.mem_cons_of_mem y hz)
        · have hm' : m = y := by simpa using hm
          subst hm'
          exact List.rel_of_sorted_cons hs z hz
      · intro m hm
        rcases List.mem_append.mp hm with hm | hm
        · have h1 := hnear m hm
          have h2 := hmono
          simp only []
          linarith
        · have hm' : m = y := by simpa using hm
          subst hm'
          have hshr := shrink_dist hne (y := m) (T := T) (by rw [← hctr]; exact hfit)
          have := le_abs_self (m.cx - cxSum (cur.members ++ [m]) /
            (((cur.members ++ [m]).length : ℚ)))
          simp only []
          linarith
    · simp only [goCols, if_neg hfit]
      have hmean : cur.center ≤ y.cx := by
        rw [hctr]
        exact mean_le_of_forall_le hne (fun m hm => hcur m hm y (List.mem_cons_self y ys))
      have hgt : (T : ℚ) < y.cx - cur.center := by
        by_contra hle
        push_neg at hle
        exact hfit (by rw [abs_of_nonneg (by linarith)]; exact hle)
      have hres := ih (⟨y.cx, [y]⟩ : Col) (List.Sorted.of_cons hs)
        (by
          intro m hm z hz
          have hm' : m = y := by simpa using hm
          subst hm'
          exact List.rel_of_sorted_cons hs z hz)
        (by simp) (by simp [cxSum])
        (by
          intro m hm
          have hm' : m = y := by simpa using hm
          subst hm'
          simp only []
          have : (0 : ℚ) ≤ (T : ℚ) := by exact_mod_cast hT
          linarith)
      constructor
      · intro c hc
        rcases List.mem_cons.mp hc with hc | hc
        · subst hc; exact ⟨hne, hctr⟩
        · exact hres.1 c hc
      · rw [List.pairwise_cons]
        refine ⟨?_, hres.2⟩
        intro d hd a ha b hb
        have hbmem : b ∈ (y :: ys : List Item) := by
          have h1 : b ∈ ((goCols T (⟨y.cx, [y]⟩ : Col) ys).map Col.members).flatten :=
            List.mem_flatten.mpr ⟨d.members, List.mem_map_of_mem Col.members hd, hb⟩
          rw [goCols_flatten] at h1
          simpa using h1
        have h1 : a.cx < y.cx := by
          have h2 := hnear a ha
          linarith
        rcases List.mem_cons.mp hbmem with hb' | hb'
        · subst hb'; exact h1
        · have hyb : cxLE y b := List.rel_of_sorted_cons hs b hb'
          unfold cxLE at hyb
          linarith

/-- Generic form of the toolkit: re-sorting by a second key and sorting again
by the first key changes nothing, provided the list was sorted by the second
key to begin with. -/
theorem sort_sort_sort_eq {α : Type} (r rq : α → α → Prop)
    [DecidableRel r] [DecidableRel rq] [IsTotal α r] [IsTrans α r]
    [IsTotal α rq] [IsTrans α rq] {B : List α} (hB : B.Sorted rq) :
    (((B.insertionSort r).insertionSort rq).insertionSort r) = B.insertionSort r := by
  apply eq_of_sorted_of_perm_of_class_filters r
  · exact ((List.perm_insertionSort r _).trans
      ((List.perm_insertionSort rq _).trans (List.perm_insertionSort r B))).trans
      (List.perm_insertionSort r B).symm
  · exact List.sorted_insertionSort r _
  · exact List.sorted_insertionSort r _
  · intro x
    rw [filter_insertionSort_class r x, filter_insertionSort_class r x]
    -- goal: filters of X := (sort r B).sort rq versus B agree on r-classes
    apply eq_of_sorted_of_perm_of_class_filters rq
    · refine (List.Perm.filter _ (List.perm_insertionSort rq _)).trans ?_
      rw [filter_insertionSort_class r x]
    · exact (List.sorted_insertionSort rq _).filter _
    · exact hB.filter _
    · intro y
      rw [filter_comm (inClass r x) (inClass rq y),
        filter_insertionSort_class rq y,
        filter_comm (inClass rq y) (inClass r x),
        filter_insertionSort_class r x]

/-- Positional pairing of items with equal horizontal centers. -/
abbrev RcxI (x y : Item) : Prop := x.cx = y.cx

theorem forall₂_append_pair {α β : Type} {R : α → β → Prop} :
    ∀ {l₁ u₁ : List α} {l₂ u₂ : List β}, List.Forall₂ R l₁ l₂ → List.Forall₂ R u₁ u₂ →
      List.Forall₂ R (l₁ ++ u₁) (l₂ ++ u₂) := by
  intro l₁ u₁ l₂ u₂ h
  induction h with
  | nil => intro hu; exact hu
  | cons h1 _ ih => intro hu; exact .cons h1 (ih hu)

/-- Positional pairing of columns: equal centers, members paired by `RcxI`. -/
def ColR (c d : Col) : Prop :=
  c.center = d.center ∧ List.Forall₂ RcxI c.members d.members

theorem cxSum_eq_of_forall₂ {ms ms' : List Item} (h : List.Forall₂ RcxI ms ms') :
    cxSum ms = cxSum ms' ∧ ms.length = ms'.length := by
  refine ⟨?_, h.length_eq⟩
  unfold cxSum
  rw [map_eq_of_forall₂ (fun m : Item => m.cx) (fun m : Item => m.cx) h]

theorem goCols_forall₂ (T : Int) :
    ∀ {rest₁ rest₂ : List Item}, List.Forall₂ RcxI rest₁ rest₂ →
      ∀ {cur₁ cur₂ : Col}, ColR cur₁ cur₂ →
      List.Forall₂ ColR (goCols T cur₁ rest₁) (goCols T cur₂ rest₂) := by
  intro rest₁ rest₂ h
  induction h with
  | nil =>
    intro cur₁ cur₂ hc
    exact .cons hc .nil
  | @cons y₁ y₂ ys₁ ys₂ hy htail ih =>
    intro cur₁ cur₂ hc
    have hy' : y₁.cx = y₂.cx := hy
    have hcond : (|y₁.cx - cur₁.center| ≤ (T : ℚ)) ↔ (|y₂.cx - cur₂.center| ≤ (T : ℚ)) := by
      rw [hy', hc.1]
    have hmem : List.Forall₂ RcxI (cur₁.members ++ [y₁]) (cur₂.members ++ [y₂]) :=
      forall₂_append_pair hc.2 (.cons hy .nil)
    by_cases hfit : |y₁.cx - cur₁.center| ≤ (T : ℚ)
    · have hfit₂ := hcond.mp hfit
      simp only [goCols, if_pos hfit, if_pos hfit₂]
      apply ih
      obtain ⟨hsum, hlen⟩ := cxSum_eq_of_forall₂ hmem
      exact ⟨by rw [hsum, hlen], hmem⟩
    · have hfit₂ := fun h => hfit (hcond.mpr h)
      simp only [goCols, if_neg hfit, if_neg hfit₂]
      exact .cons hc (ih ⟨hy', .cons hy .nil⟩)

theorem greedyCols_forall₂ (T : Int) {s₁ s₂ : List Item}
    (h : List.Forall₂ RcxI s₁ s₂) :
    List.Forall₂ ColR (greedyCols T s₁) (greedyCols T s₂) := by
  cases h with
  | nil => exact .nil
  | @cons x₁ x₂ xs₁ xs₂ hx htail =>
    exact goCols_forall₂ T htail ⟨hx, .cons hx .nil⟩

theorem forall₂_of_map_eq₂ {α β γ : Type} (f : α → γ) (g : β → γ) :
    ∀ {l₁ : List α} {l₂ : List β}, l₁.map f = l₂.map g →
      List.Forall₂ (fun a b => f a = g b) l₁ l₂ := by
  intro l₁
  induction l₁ with
  | nil =>
    intro l₂ h
    cases l₂ with
    | nil => exact .nil
    | cons b t => simp at h
  | cons a t ih =>
    intro l₂ h
    cases l₂ with
    | nil => simp at h
    | cons b t₂ =>
      simp only [List.map_cons, List.cons.injEq] at h
      exact .cons h.1 (ih h.2)

theorem forall₂_conj {α β : Type} {P Q : α → β → Prop} :
    ∀ {l₁ : List α} {l₂ : List β}, List.Forall₂ P l₁ l₂ → List.Forall₂ Q l₁ l₂ →
      List.Forall₂ (fun a b => P a b ∧ Q a b) l₁ l₂ := by
  intro l₁ l₂ h
  induction h with
  | nil => intro _; exact .nil
  | cons h1 _ ih =>
    intro hq
    cases hq with
    | cons hq1 hq2 => exact .cons ⟨h1, hq1⟩ (ih hq2)

instance : IsTotal Item cxLE := ⟨fun a b => le_total a.cx b.cx⟩

instance : IsTrans Item cxLE := ⟨fun _ _ _ h1 h2 => le_trans h1 h2⟩

instance : IsTotal Col ctrLE := ⟨fun a b => le_total a.center b.center⟩

instance : IsTrans Col ctrLE := ⟨fun _ _ _ h1 h2 => le_trans h1 h2⟩

instance : IsTotal Item memLE := by
  constructor
  intro a b
  rcases lt_trichotomy a.yt b.yt with h | h | h
  · exact Or.inl (Or.inl h)
  · rcases le_total a.absb.ulx b.absb.ulx with hu | hu
    · exact Or.inl (Or.inr ⟨h, hu⟩)
    · exact Or.inr (Or.inr ⟨h.symm, hu⟩)
  · exact Or.inr (Or.inl h)

instance : IsTrans Item memLE := by
  constructor
  intro a b c h₁ h₂
  rcases h₁ with h1 | ⟨e1, u1⟩ <;> rcases h₂ with h2 | ⟨e2, u2⟩
  · exact Or.inl (h1.trans h2)
  · exact Or.inl (e2 ▸ h1)
  · exact Or.inl (e1 ▸ h2)
  · exact Or.inr ⟨e1.trans e2, u1.trans u2⟩

theorem greedyCols_facts (T : Int) (hT : 0 ≤ T) (s : List Item)
    (hs : List.Sorted cxLE s) :
    (∀ c ∈ greedyCols T s, colGood c) ∧ List.Pairwise colLT (greedyCols T s) := by
  cases s with
  | nil => exact ⟨by simp [greedyCols], by simp [greedyCols]⟩
  | cons x xs =>
    exact goCols_master T hT xs ⟨x.cx, [x]⟩ (List.Sorted.of_cons hs)
      (by
        intro m hm z hz
        have hm' : m = x := by simpa using hm
        subst hm'
        exact List.rel_of_sorted_cons hs z hz)
      (by simp) (by simp [cxSum])
      (by
        intro m hm
        have hm' : m = x := by simpa using hm
        subst hm'
        simp only []
        have : (0 : ℚ) ≤ (T : ℚ) := by exact_mod_cast hT
        linarith)

theorem greedyCols_members_sorted (T : Int) {s : List Item} (hs : List.Sorted cxLE s)
    {c : Col} (hc : c ∈ greedyCols T s) : List.Sorted cxLE c.members := by
  have h1 : List.Pairwise cxLE ((greedyCols T s).map Col.members).flatten := by
    rw [greedyCols_flatten]
    exact hs
  exact (List.pairwise_flatten.mp h1).1 c.members (List.mem_map_of_mem Col.members hc)

theorem forall₂_imp_of_mem {α β : Type} {P Q : α → β → Prop} :
    ∀ {l₁ : List α} {l₂ : List β}, List.Forall₂ P l₁ l₂ →
      (∀ a ∈ l₁, ∀ b ∈ l₂, P a b → Q a b) → List.Forall₂ Q l₁ l₂ := by
  intro l₁ l₂ h
  induction h with
  | nil => intro _; exact .nil
  | @cons a b t₁ t₂ h1 _ ih =>
    intro himp
    refine .cons (himp a (List.mem_cons_self a t₁) b (List.mem_cons_self b t₂) h1) ?_
    exact ih (fun x hx y hy hxy =>
      himp x (List.mem_cons_of_mem a hx) y (List.mem_cons_of_mem b hy) hxy)

/-- Idempotence of the reading-order walk on items, for a non-negative
threshold (the code's threshold is at least 60). -/
theorem orderItems_idem (T : Int) (hT : 0 ≤ T) (its : List Item) :
    orderItems T (orderItems T its) = orderItems T its := by
  have hperm : orderItems T its ~ its := orderItems_perm T its
  set o := orderItems T its with hodef
  set s₁ := its.insertionSort cxLE with hs₁def
  have hs₁ : List.Sorted cxLE s₁ := List.sorted_insertionSort cxLE its
  set s₂ := o.insertionSort cxLE with hs₂def
  have hs₂ : List.Sorted cxLE s₂ := List.sorted_insertionSort cxLE o
  have hb₁ : buildColumns T s₁ = greedyCols T s₁ := buildColumns_eq_greedy T s₁ hs₁
  have hb₂ : buildColumns T s₂ = greedyCols T s₂ := buildColumns_eq_greedy T s₂ hs₂
  set cols₁ := greedyCols T s₁ with hc₁def
  set cols₂ := greedyCols T s₂ with hc₂def
  have ho : o = ((cols₁.insertionSort ctrLE).map
      (fun c => c.members.insertionSort memLE)).flatten := by
    rw [hodef]
    show orderItems T its = _
    unfold orderItems
    rw [← hs₁def, hb₁]
  -- equal center sequences of the two sorted lists
  have hpm : s₂ ~ s₁ :=
    (List.perm_insertionSort cxLE o).trans
      (hperm.trans (List.perm_insertionSort cxLE its).symm)
  have hsm₁ : List.Sorted (· ≤ ·) (s₁.map (fun i => i.cx)) := List.pairwise_map.mpr hs₁
  have hsm₂ : List.Sorted (· ≤ ·) (s₂.map (fun i => i.cx)) := List.pairwise_map.mpr hs₂
  have hmap : s₂.map (fun i => i.cx) = s₁.map (fun i => i.cx) :=
    List.eq_of_perm_of_sorted (hpm.map _) hsm₂ hsm₁
  have hF : List.Forall₂ RcxI s₁ s₂ := forall₂_of_map_eq (fun i : Item => i.cx) hmap.symm
  have hFC : List.Forall₂ ColR cols₁ cols₂ := greedyCols_forall₂ T hF
  obtain ⟨hgood₁, hlt₁⟩ := greedyCols_facts T hT s₁ hs₁
  have hclsx : ∀ x a : Item, inClass cxLE x a = true ↔ x.cx = a.cx := by
    intro x a
    rw [inClass_true_iff]
    unfold cxLE
    constructor
    · rintro ⟨h1, h2⟩
      exact le_antisymm h1 h2
    · intro h
      exact ⟨le_of_eq h, le_of_eq h.symm⟩
  -- the second sorted list, block by block
  have hF2 : s₂ = (cols₁.map
      (fun c => (c.members.insertionSort memLE).insertionSort cxLE)).flatten := by
    apply eq_of_sorted_of_perm_of_class_filters cxLE
    · refine hpm.trans ?_
      have hpieces : List.Forall₂ (· ~ ·) (cols₁.map Col.members)
          (cols₁.map (fun c => (c.members.insertionSort memLE).insertionSort cxLE)) := by
        rw [List.forall₂_map_right_iff, List.forall₂_map_left_iff]
        refine List.forall₂_same.2 ?_
        intro c _
        exact ((List.perm_insertionSort cxLE _).trans
          (List.perm_insertionSort memLE _)).symm
      calc s₁ = (cols₁.map Col.members).flatten := (greedyCols_flatten T s₁).symm
        _ ~ _ := List.Perm.flatten_congr hpieces
    · exact hs₂
    · show List.Pairwise cxLE _
      rw [List.pairwise_flatten]
      constructor
      · intro l hl
        obtain ⟨c, _, rfl⟩ := List.mem_map.mp hl
        exact List.sorted_insertionSort cxLE _
      · rw [List.pairwise_map]
        refine hlt₁.imp ?_
        intro c d h x hx y hy
        have hx' : x ∈ c.members := by
          have h1 := (List.mem_insertionSort cxLE).mp hx
          exact (List.mem_insertionSort memLE).mp h1
        have hy' : y ∈ d.members := by
          have h1 := (List.mem_insertionSort cxLE).mp hy
          exact (List.mem_insertionSort memLE).mp h1
        exact le_of_lt (h x hx' y hy')
    · intro x
      have hLHS : s₂.filter (inClass cxLE x) = o.filter (inClass cxLE x) := by
        rw [hs₂def]
        exact filter_insertionSort_class cxLE x o
      rw [hLHS, ho]
      rw [List.filter_flatten, List.filter_flatten, List.map_map, List.map_map]
      have hcomp1 : (List.filter (inClass cxLE x) ∘
          fun c => c.members.insertionSort memLE) =
          fun c : Col => (c.members.insertionSort memLE).filter (inClass cxLE x) := rfl
      have hcomp2 : (List.filter (inClass cxLE x) ∘
          fun c => (c.members.insertionSort memLE).insertionSort cxLE) =
          fun c : Col => (c.members.insertionSort memLE).filter (inClass cxLE x) := by
        funext c
        exact filter_insertionSort_class cxLE x _
      rw [hcomp1, hcomp2]
      apply flatten_eq_of_perm_of_pairwise
      · exact (List.perm_insertionSort ctrLE cols₁).map _
      · have hne2 : List.Pairwise
            (fun c d : Col => ∀ a ∈ c.members, ∀ b ∈ d.members, a.cx ≠ b.cx) cols₁ :=
          hlt₁.imp (fun h a ha b hb => ne_of_lt (h a ha b hb))
        have hsymm : ∀ {c d : Col},
            (∀ a ∈ c.members, ∀ b ∈ d.members, a.cx ≠ b.cx) →
            (∀ a ∈ d.members, ∀ b ∈ c.members, a.cx ≠ b.cx) :=
          fun h a ha b hb => (h b hb a ha).symm
        have hne3 := ((List.perm_insertionSort ctrLE cols₁).pairwise_iff hsymm).mpr hne2
        rw [List.pairwise_map]
        refine hne3.imp ?_
        intro c d h hgc hgd
        exfalso
        have hac : ∃ a ∈ c.members.insertionSort memLE, inClass cxLE x a = true := by
          by_contra hno
          push_neg at hno
          exact hgc (List.filter_eq_nil_iff.mpr (fun a ha => by simp [hno a ha]))
        have hbd : ∃ b ∈ d.members.insertionSort memLE, inClass cxLE x b = true := by
          by_contra hno
          push_neg at hno
          exact hgd (List.filter_eq_nil_iff.mpr (fun b hb => by simp [hno b hb]))
        obtain ⟨a, ha, hacls⟩ := hac
        obtain ⟨b, hb, hbcls⟩ := hbd
        have ha' : a ∈ c.members := (List.mem_insertionSort memLE).mp ha
        have hb' : b ∈ d.members := (List.mem_insertionSort memLE).mp hb
        have h1 : x.cx = a.cx := (hclsx x a).mp hacls
        have h2 : x.cx = b.cx := (hclsx x b).mp hbcls
        exact h a ha' b hb' (h1 ▸ h2)
  -- identify the second run's blocks
  have hG : cols₂.map Col.members =
      cols₁.map (fun c => (c.members.insertionSort memLE).insertionSort cxLE) := by
    apply eq_of_flatten_eq_of_length_eq
    · rw [List.forall₂_map_right_iff, List.forall₂_map_left_iff]
      refine hFC.flip.imp ?_
      rintro c d ⟨_, hmem⟩
      have := hmem.length_eq
      simp only [List.length_insertionSort]
      omega
    · rw [greedyCols_flatten T s₂]
      exact hF2
  -- per-column equality of the final member sorts
  have hQ : List.Forall₂ (fun c d : Col => c.center = d.center ∧
      d.members.insertionSort memLE = c.members.insertionSort memLE) cols₁ cols₂ := by
    have h1 : List.Forall₂
        (fun d c : Col => d.members = (c.members.insertionSort memLE).insertionSort cxLE)
        cols₂ cols₁ := forall₂_of_map_eq₂ Col.members _ hG
    have h3 := forall₂_conj hFC h1.flip
    refine forall₂_imp_of_mem h3 ?_
    rintro c hc d _ ⟨⟨hctr, _⟩, hmem⟩
    refine ⟨hctr, ?_⟩
    rw [hmem]
    exact sort_sort_sort_eq memLE cxLE (greedyCols_members_sorted T hs₁ hc)
  -- transport through the column sort and conclude
  have hQs := forall₂_insertionSort ctrLE
    (Q := fun c d : Col => c.center = d.center ∧
      d.members.insertionSort memLE = c.members.insertionSort memLE)
    (by
      rintro a b c d ⟨h1, _⟩ ⟨h2, _⟩
      unfold ctrLE
      rw [h1, h2]) hQ
  have hmapeq : (cols₂.insertionSort ctrLE).map (fun c => c.members.insertionSort memLE) =
      (cols₁.insertionSort ctrLE).map (fun c => c.members.insertionSort memLE) := by
    symm
    apply map_eq_of_forall₂ (fun c : Col => c.members.insertionSort memLE)
      (fun c : Col => c.members.insertionSort memLE)
    refine hQs.imp ?_
    intro a b h
    exact h.2.symm
  show orderItems T o = o
  unfold orderItems
  rw [← hs₂def, hb₂, hmapeq, ← ho]

/-! ### The aggregation stage is a fixpoint on its own output -/

theorem childIdsOf_aggregateAnn_of_some {amap : String → Option Ann} {a : Ann}
    {cids : List String} (hc : childIdsOf a = some cids) (hw : wordData amap cids ≠ []) :
    childIdsOf (aggregateAnn amap a) = none := by
  rw [aggregateAnn_of_some hc hw]
  show ((if (relsOf a).filter (fun q => decide (q.1 ≠ "child")) = [] then none
      else some ((relsOf a).filter (fun q => decide (q.1 ≠ "child")))).getD
        ([] : List (String × List String))).lookup "child" = none
  by_cases hr : (relsOf a).filter (fun q => decide (q.1 ≠ "child")) = []
  · rw [if_pos hr]; rfl
  · rw [if_neg hr]; exact lookup_filter_ne_child (relsOf a)

theorem childIdsOf_aggregateAnn {amap : String → Option Ann} {a : Ann} {cids : List String}
    (h : childIdsOf (aggregateAnn amap a) = some cids) : childIdsOf a = some cids := by
  cases hc : childIdsOf a with
  | none => rw [aggregateAnn_of_none hc, hc] at h; exact h
  | some cids0 =>
    by_cases hw : wordData amap cids0 = []
    · rw [aggregateAnn_of_empty hc hw, hc] at h; exact h
    · rw [childIdsOf_aggregateAnn_of_some hc hw] at h
      exact Option.noConfusion h

theorem annMap_eq_none {anns : List Ann} {i : String}
    (h : ∀ a ∈ anns, a.annId ≠ i) : annMap anns i = none := by
  unfold annMap
  rw [List.find?_eq_none]
  intro a ha
  simp only [beq_iff_eq]
  exact h a (List.mem_reverse.mp ha)

theorem wordData_eq_nil_of_unresolved {amap : String → Option Ann} {cids : List String}
    (h : ∀ i ∈ cids, amap i = none) : wordData amap cids = [] := by
  unfold wordData
  rw [List.filterMap_eq_nil_iff]
  intro i hi
  unfold childWordDatum
  rw [h i hi]

theorem aggregatePage_simplify_fix (p : Page) :
    aggregatePage (simplify_annotations_data p) = simplify_annotations_data p := by
  set q := simplify_annotations_data p with hq
  have hfix : ∀ b ∈ q.anns, aggregateAnn (annMap q.anns) b = b := by
    intro b hb
    cases hcb : childIdsOf b with
    | none => exact aggregateAnn_of_none hcb
    | some cids =>
      obtain ⟨a, ha, hbeq, hbid⟩ := mem_simplify_anns (hq ▸ hb)
      have hcida : childIdsOf a = some cids := childIdsOf_aggregateAnn (hbeq ▸ hcb)
      have hsub : ∀ i ∈ cids, i ∈ removalList p.anns := fun i hi =>
        mem_removalList_iff.mpr ⟨a, ha, cids, hcida, hi⟩
      have hnone : ∀ i ∈ cids, annMap q.anns i = none := by
        intro i hi
        apply annMap_eq_none
        intro c hc hceq
        obtain ⟨a2, _, _, hnot2⟩ := mem_simplify_anns (hq ▸ hc)
        exact hnot2 (hceq ▸ hsub i hi)
      exact aggregateAnn_of_empty hcb (wordData_eq_nil_of_unresolved hnone)
  have hkeep : ∀ b ∈ q.anns, b.annId ∉ removalList q.anns := by
    intro b hb hmem
    obtain ⟨b2, hb2, cids2, hc2, hi2⟩ := mem_removalList_iff.mp hmem
    obtain ⟨a2, ha2, hbeq2, _⟩ := mem_simplify_anns (hq ▸ hb2)
    have hcida2 : childIdsOf a2 = some cids2 := childIdsOf_aggregateAnn (hbeq2 ▸ hc2)
    have hin : b.annId ∈ removalList p.anns :=
      mem_removalList_iff.mpr ⟨a2, ha2, cids2, hcida2, hi2⟩
    obtain ⟨_, _, _, hnot⟩ := mem_simplify_anns (hq ▸ hb)
    exact hnot hin
  have hanns : (aggregatePage q).anns = q.anns := by
    rw [aggregatePage_anns]
    have hmapid : q.anns.map (aggregateAnn (annMap q.anns)) = q.anns := by
      rw [List.map_congr_left hfix]
      exact List.map_id' q.anns
    rw [hmapid]
    apply List.filter_eq_self.mpr
    intro b hb
    simpa using hkeep b hb
  calc aggregatePage q = ⟨q.pbox, (aggregatePage q).anns⟩ := rfl
    _ = ⟨q.pbox, q.anns⟩ := by rw [hanns]
    _ = q := rfl

theorem order_parents_idem (l : List Ann) (pb : RBox) :
    order_parents (order_parents l pb) pb = order_parents l pb := by
  have hT : 0 ≤ column_threshold pb :=
    le_trans (by norm_num) (le_max_right (truncQ ((0.08 : ℚ) * (pageW pb : ℚ))) 60)
  unfold order_parents
  rw [List.map_map]
  have hmem : ∀ it ∈ orderItems (column_threshold pb) (l.map (mkItem pb)),
      (mkItem pb ∘ fun x : Item => x.ann) it = id it := by
    intro it hit
    have h1 : it ∈ l.map (mkItem pb) := (orderItems_perm _ _).subset hit
    obtain ⟨a, _, rfl⟩ := List.mem_map.mp h1
    rfl
  rw [List.map_congr_left hmem, List.map_id, orderItems_idem _ hT]

/-- C9: the full simplification pipeline is idempotent: a second run on its
own output changes neither the number nor the content nor the order of the
records. -/
theorem simplify_idempotent (p : Page) :
    simplify_annotations_data (simplify_annotations_data p) = simplify_annotations_data p := by
  set q := simplify_annotations_data p with hq
  have hagg : aggregatePage q = q := aggregatePage_simplify_fix p
  have hqanns : q.anns =
      order_parents (aggregatePage p).anns (get_page_bbox (aggregatePage p)) := by
    rw [hq]
    rfl
  have hpb : get_page_bbox q = get_page_bbox (aggregatePage p) := rfl
  show (let p1 := aggregatePage q;
    { p1 with anns := order_parents p1.anns (get_page_bbox p1) }) = q
  rw [hagg]
  show (⟨q.pbox, order_parents q.anns (get_page_bbox q)⟩ : Page) = q
  rw [hqanns, hpb, order_parents_idem]
  calc (⟨q.pbox, order_parents (aggregatePage p).anns (get_page_bbox (aggregatePage p))⟩ :
      Page) = ⟨q.pbox, q.anns⟩ := by rw [← hqanns]
    _ = q := rfl

/-- Witness for C8's amended statement on the grandchild chain. -/
theorem child_links_of_child_records_also_removed_witness :
    annA ∈ pageC8.anns ∧ annB ∈ pageC8.anns ∧ childIdsOf annA = some ["B"] ∧
      annB.annId ∈ (["B"] : List String) ∧ childIdsOf annB = some ["C"] ∧
      "C" ∈ (["C"] : List String) ∧
      "C" ∉ (simplify_annotations_data pageC8).anns.map (fun x => x.annId) :=
  ⟨by decide, by decide, rfl, by decide, rfl, by decide,
   child_links_of_child_records_also_removed pageC8 annA annB (by decide) (by decide)
     ["B"] rfl (by decide) ["C"] rfl "C" (by decide)⟩

end DD
